import Mathlib

/-!
Verification of the LFA repository's simulation cores: the finite-automaton
engine (machine.py), the interactive stepper (secvential_input.py), the
pushdown-automaton search (pda.py) and the Turing-machine engine (turing.py).
States and symbols are Python strings, modelled as `String`. Python sets are
modelled as lists in iteration order; set membership, addition and
intersection are modelled membership-faithfully on those lists.
-/

/-- Lookup in the `epsilon_transitions` dict: `state -> set of states`;
an absent key behaves as the empty set (the source guards with
`if state in self.epsilon_transitions`). -/
def epsLookup (eps : List (String × List String)) (s : String) : List String :=
  match eps.find? (fun p => decide (p.1 = s)) with
  | some p => p.2
  | none => []

/-- All target states appearing in the epsilon relation (used only to bound
the worklist of `_epsilon_closure`, which can only ever add such states). -/
def allTargets (eps : List (String × List String)) : List String :=
  (eps.map Prod.snd).flatten

/-- The inner loop of `_epsilon_closure` over the successors of one dequeued
state: `for next_state in eps[state]: if next_state not in closure:
closure.add(next_state); queue.append(next_state)` (machine.py lines 163-166,
secvential_input.py lines 124-127). -/
def enqueueFresh : List String → List String → List String → List String × List String
  | cl, q, [] => (cl, q)
  | cl, q, t :: ts =>
    if t ∈ cl then enqueueFresh cl q ts
    else enqueueFresh (cl ++ [t]) (q ++ [t]) ts

theorem enqueueFresh_spec (ts : List String) : ∀ cl q, ∃ f,
    enqueueFresh cl q ts = (cl ++ f, q ++ f) ∧ f.Nodup ∧
    (∀ x ∈ f, x ∈ ts ∧ x ∉ cl) ∧ (∀ x ∈ ts, x ∈ cl ∨ x ∈ f) := by
  induction ts with
  | nil =>
    intro cl q
    exact ⟨[], by simp [enqueueFresh], List.nodup_nil, by simp, by simp⟩
  | cons t ts ih =>
    intro cl q
    by_cases ht : t ∈ cl
    · obtain ⟨f, hf, hnd, hmem, hcov⟩ := ih cl q
      refine ⟨f, by simpa [enqueueFresh, ht] using hf, hnd,
        fun x hx => ⟨List.mem_cons_of_mem t (hmem x hx).1, (hmem x hx).2⟩, ?_⟩
      intro x hx
      rcases List.mem_cons.mp hx with h | h
      · exact Or.inl (h ▸ ht)
      · exact hcov x h
    · obtain ⟨f, hf, hnd, hmem, hcov⟩ := ih (cl ++ [t]) (q ++ [t])
      refine ⟨t :: f, ?_, ?_, ?_, ?_⟩
      · have : enqueueFresh cl q (t :: ts) = enqueueFresh (cl ++ [t]) (q ++ [t]) ts := by
          simp [enqueueFresh, ht]
        rw [this, hf]
        simp
      · refine List.nodup_cons.mpr ⟨?_, hnd⟩
        intro hcontra
        exact ((hmem t hcontra).2) (by simp)
      · intro x hx
        rcases List.mem_cons.mp hx with h | h
        · exact ⟨h ▸ List.mem_cons_self t ts, h ▸ ht⟩
        · obtain ⟨h1, h2⟩ := hmem x h
          exact ⟨List.mem_cons_of_mem t h1, fun hc => h2 (List.mem_append_left _ hc)⟩
      · intro x hx
        rcases List.mem_cons.mp hx with h | h
        · exact Or.inr (h ▸ List.mem_cons_self t f)
        · rcases hcov x h with h' | h'
          · rcases List.mem_append.mp h' with h'' | h''
            · exact Or.inl h''
            · exact Or.inr (List.mem_cons.mpr (Or.inl (by simpa using h'')))
          · exact Or.inr (List.mem_cons_of_mem t h')

/-- Counting helper: blocking one element of a duplicate-free list shrinks the
filtered list by exactly one. -/
theorem filter_notmem_cons_length :
    ∀ (L : List String), L.Nodup → ∀ (t : String), t ∈ L →
    ∀ (cl : List String), t ∉ cl →
    (L.filter (fun x => decide (x ∉ cl ++ [t]))).length + 1 =
    (L.filter (fun x => decide (x ∉ cl))).length := by
  intro L
  induction L with
  | nil => intro _ t htL; simp at htL
  | cons a L ih =>
    intro hnd t htL cl htcl
    rcases List.nodup_cons.mp hnd with ⟨hna, hndL⟩
    by_cases hat : a = t
    · subst hat
      have hfix : L.filter (fun x => decide (x ∉ cl ++ [a])) =
          L.filter (fun x => decide (x ∉ cl)) := by
        apply List.filter_congr
        intro x hx
        have hxa : x ≠ a := fun hc => hna (hc ▸ hx)
        simp [hxa]
      have e1 : (a :: L).filter (fun x => decide (x ∉ cl ++ [a])) =
          L.filter (fun x => decide (x ∉ cl ++ [a])) := by
        rw [List.filter_cons]
        simp
      have e2 : (a :: L).filter (fun x => decide (x ∉ cl)) =
          a :: L.filter (fun x => decide (x ∉ cl)) := by
        rw [List.filter_cons]
        simp [htcl]
      rw [e1, e2, hfix, List.length_cons]
    · have htL' : t ∈ L := by
        rcases List.mem_cons.mp htL with h | h
        · exact absurd h.symm hat
        · exact h
      by_cases hacl : a ∈ cl
      · have e1 : (a :: L).filter (fun x => decide (x ∉ cl ++ [t])) =
            L.filter (fun x => decide (x ∉ cl ++ [t])) := by
          rw [List.filter_cons]; simp [hacl]
        have e2 : (a :: L).filter (fun x => decide (x ∉ cl)) =
            L.filter (fun x => decide (x ∉ cl)) := by
          rw [List.filter_cons]; simp [hacl]
        rw [e1, e2]
        exact ih hndL t htL' cl htcl
      · have e1 : (a :: L).filter (fun x => decide (x ∉ cl ++ [t])) =
            a :: L.filter (fun x => decide (x ∉ cl ++ [t])) := by
          rw [List.filter_cons]; simp [hacl, hat]
        have e2 : (a :: L).filter (fun x => decide (x ∉ cl)) =
            a :: L.filter (fun x => decide (x ∉ cl)) := by
          rw [List.filter_cons]; simp [hacl]
        rw [e1, e2, List.length_cons, List.length_cons]
        have := ih hndL t htL' cl htcl
        omega

/-- Blocking a fresh batch `f` (no duplicates, disjoint from `cl`, all inside
`L`) shrinks the filtered list by exactly `f.length`. -/
theorem filter_notmem_append_length (L : List String) (hnd : L.Nodup) :
    ∀ (f cl : List String), f.Nodup → (∀ x ∈ f, x ∈ L ∧ x ∉ cl) →
    (L.filter (fun x => decide (x ∉ cl ++ f))).length + f.length =
    (L.filter (fun x => decide (x ∉ cl))).length := by
  intro f
  induction f with
  | nil => intro cl _ _; simp
  | cons t f ih =>
    intro cl hfnd hmem
    rcases List.nodup_cons.mp hfnd with ⟨htf, hfnd'⟩
    have hsplit : cl ++ t :: f = (cl ++ [t]) ++ f := by simp
    rw [hsplit]
    have hstep := ih (cl ++ [t]) hfnd' ?memf
    case memf =>
      intro x hx
      obtain ⟨h1, h2⟩ := hmem x (List.mem_cons_of_mem t hx)
      refine ⟨h1, ?_⟩
      intro hc
      rcases List.mem_append.mp hc with h | h
      · exact h2 h
      · simp at h
        exact htf (h ▸ hx)
    have hone := filter_notmem_cons_length L hnd t
      (hmem t (List.mem_cons_self t f)).1 cl (hmem t (List.mem_cons_self t f)).2
    simp only [List.length_cons]
    omega

/-- The worklist measure strictly decreases on each iteration of the
`_epsilon_closure` while-loop. -/
theorem enqueueFresh_measure (eps : List (String × List String))
    (cl rest : List String) (s : String) :
    ((allTargets eps).dedup.filter
        (fun t => decide (t ∉ (enqueueFresh cl rest (epsLookup eps s)).1))).length +
      (enqueueFresh cl rest (epsLookup eps s)).2.length + 1 ≤
    ((allTargets eps).dedup.filter (fun t => decide (t ∉ cl))).length +
      (s :: rest).length := by
  obtain ⟨f, hf, hnd, hmem, _⟩ := enqueueFresh_spec (epsLookup eps s) cl rest
  rw [hf]
  have hsub : ∀ x ∈ f, x ∈ (allTargets eps).dedup ∧ x ∉ cl := by
    intro x hx
    obtain ⟨h1, h2⟩ := hmem x hx
    refine ⟨List.mem_dedup.mpr ?_, h2⟩
    unfold epsLookup at h1
    unfold allTargets
    rcases hfind : (eps.find? (fun p => decide (p.1 = s))) with _ | p
    · rw [hfind] at h1; simp at h1
    · rw [hfind] at h1
      have hp : p ∈ eps := List.mem_of_find?_eq_some hfind
      exact List.mem_flatten.mpr ⟨p.2, List.mem_map.mpr ⟨p, hp, rfl⟩, h1⟩
  have := filter_notmem_append_length (allTargets eps).dedup (List.nodup_dedup _) f cl hnd hsub
  simp only [List.length_append, List.length_cons]
  omega

/-- Embeds `FiniteAutomaton._epsilon_closure` (machine.py lines 155-168 and
secvential_input.py lines 116-129): breadth-first worklist loop.
`cl` is the `closure` set, `q` the `deque`. -/
def closureLoop (eps : List (String × List String)) (cl : List String)
    (q : List String) : List String :=
  match q with
  | [] => cl
  | s :: rest =>
    let r := enqueueFresh cl rest (epsLookup eps s)
    closureLoop eps r.1 r.2
termination_by ((allTargets eps).dedup.filter (fun t => decide (t ∉ cl))).length + q.length
decreasing_by
  have := enqueueFresh_measure eps cl rest s
  simp only [List.length_cons] at this ⊢
  omega

/-- Embeds `_epsilon_closure(states)`: `closure = set(states); queue = deque(states)`,
then run the worklist loop. -/
def epsilon_closure (eps : List (String × List String)) (states : List String) :
    List String :=
  closureLoop eps states states

/-- Declarative epsilon-reachability: the states reachable from the set `S`
by zero or more epsilon moves. -/
inductive EpsReach (eps : List (String × List String)) (S : List String) : String → Prop
  | base {x : String} : x ∈ S → EpsReach eps S x
  | step {s x : String} : EpsReach eps S s → x ∈ epsLookup eps s → EpsReach eps S x

theorem closureLoop_spec (eps : List (String × List String)) (S : List String) :
    ∀ cl q, (∀ x ∈ q, x ∈ cl) →
    (∀ x ∈ cl, x ∉ q → ∀ y ∈ epsLookup eps x, y ∈ cl) →
    (∀ x ∈ cl, EpsReach eps S x) →
    (∀ x ∈ cl, x ∈ closureLoop eps cl q) ∧
    (∀ x ∈ closureLoop eps cl q, EpsReach eps S x) ∧
    (∀ x ∈ closureLoop eps cl q, ∀ y ∈ epsLookup eps x, y ∈ closureLoop eps cl q) := by
  intro cl q
  induction cl, q using closureLoop.induct eps with
  | case1 cl =>
    intro _ hclosed hreach
    rw [closureLoop]
    exact ⟨fun x hx => hx, hreach, fun x hx y hy => hclosed x hx (by simp) y hy⟩
  | case2 cl s rest r ih =>
    intro hqcl hclosed hreach
    obtain ⟨f, hf, hnd, hmem, hcov⟩ := enqueueFresh_spec (epsLookup eps s) cl rest
    have hr1 : r.1 = cl ++ f := by
      show (enqueueFresh cl rest (epsLookup eps s)).1 = cl ++ f
      rw [hf]
    have hr2 : r.2 = rest ++ f := by
      show (enqueueFresh cl rest (epsLookup eps s)).2 = rest ++ f
      rw [hf]
    have hscl : s ∈ cl := hqcl s (List.mem_cons_self s rest)
    have hqcl' : ∀ x ∈ r.2, x ∈ r.1 := by
      intro x hx
      rw [hr2] at hx
      rw [hr1]
      rcases List.mem_append.mp hx with h | h
      · exact List.mem_append_left _ (hqcl x (List.mem_cons_of_mem s h))
      · exact List.mem_append_right _ h
    have hclosed' : ∀ x ∈ r.1, x ∉ r.2 → ∀ y ∈ epsLookup eps x, y ∈ r.1 := by
      intro x hx hnx y hy
      rw [hr1] at hx ⊢
      rw [hr2] at hnx
      rcases List.mem_append.mp hx with h | h
      · by_cases hxs : x = s
        · subst hxs
          rcases hcov y hy with h' | h'
          · exact List.mem_append_left _ h'
          · exact List.mem_append_right _ h'
        · have hxq : x ∉ s :: rest := by
            intro hc
            rcases List.mem_cons.mp hc with h' | h'
            · exact hxs h'
            · exact hnx (List.mem_append_left _ h')
          exact List.mem_append_left _ (hclosed x h hxq y hy)
      · exact absurd (List.mem_append_right rest h) hnx
    have hreach' : ∀ x ∈ r.1, EpsReach eps S x := by
      intro x hx
      rw [hr1] at hx
      rcases List.mem_append.mp hx with h | h
      · exact hreach x h
      · exact EpsReach.step (hreach s hscl) (hmem x h).1
    obtain ⟨g1, g2, g3⟩ := ih hqcl' hclosed' hreach'
    rw [closureLoop]
    refine ⟨?_, g2, g3⟩
    intro x hx
    exact g1 x (by rw [hr1]; exact List.mem_append_left _ hx)

/-- The worklist closure computes exactly declarative epsilon-reachability. -/
theorem mem_epsilon_closure (eps : List (String × List String)) (S : List String)
    (x : String) : x ∈ epsilon_closure eps S ↔ EpsReach eps S x := by
  unfold epsilon_closure
  constructor
  · intro hx
    have := closureLoop_spec eps S S S (fun x hx => hx) (fun x hx hnx => absurd hx hnx)
      (fun x hx => EpsReach.base hx)
    exact this.2.1 x hx
  · intro hx
    have hspec := closureLoop_spec eps S S S (fun x hx => hx) (fun x hx hnx => absurd hx hnx)
      (fun x hx => EpsReach.base hx)
    induction hx with
    | @base z hz => exact hspec.1 _ hz
    | @step s z hprev hy ih => exact hspec.2.2 _ ih _ hy

theorem epsReach_congr (eps : List (String × List String)) (S T : List String)
    (h : ∀ x, x ∈ S ↔ x ∈ T) (x : String) : EpsReach eps S x ↔ EpsReach eps T x := by
  constructor
  · intro hx
    induction hx with
    | @base z hb => exact EpsReach.base ((h _).mp hb)
    | @step s z hprev hy ih => exact EpsReach.step ih hy
  · intro hx
    induction hx with
    | @base z hb => exact EpsReach.base ((h _).mpr hb)
    | @step s z hprev hy ih => exact EpsReach.step ih hy

theorem epsReach_absorb (eps : List (String × List String)) (S : List String)
    (x : String) : EpsReach eps (epsilon_closure eps S) x ↔ EpsReach eps S x := by
  constructor
  · intro hx
    induction hx with
    | @base z hb => exact (mem_epsilon_closure eps S _).mp hb
    | @step s z hprev hy ih => exact EpsReach.step ih hy
  · intro hx
    exact EpsReach.base ((mem_epsilon_closure eps S x).mpr hx)

/-- Claim C9: for every epsilon relation and every state set `S`, the epsilon
closure is extensive (`S ⊆ closure(S)`) and idempotent
(`closure(closure(S)) == closure(S)` as sets, i.e. membership-equal). -/
theorem epsilon_closure_extensive_idempotent (eps : List (String × List String))
    (S : List String) :
    (∀ s ∈ S, s ∈ epsilon_closure eps S) ∧
    (∀ x, x ∈ epsilon_closure eps (epsilon_closure eps S) ↔ x ∈ epsilon_closure eps S) := by
  constructor
  · intro s hs
    exact (mem_epsilon_closure eps S s).mpr (EpsReach.base hs)
  · intro x
    rw [mem_epsilon_closure, mem_epsilon_closure, epsReach_absorb]

/-- The finite-automaton definition built by the loader (machine.py lines
4-12). `transitions` models the dict `(state, symbol) -> set of states`; each
stored set is a list in iteration order. `type` is the string tag set by
`load_from_file` ("DFA", or "NFA" when epsilon rules exist). -/
structure FiniteAutomaton where
  states : List String
  symbols : List String
  transitions : List ((String × String) × List String)
  epsilon_transitions : List (String × List String)
  start_state : String
  accept_states : List String
  type : String
deriving DecidableEq

/-- Lookup in the `transitions` dict; an absent key yields the empty list
(the source guards with `if key in self.transitions`). -/
def faLookup (tr : List ((String × String) × List String)) (k : String × String) :
    List String :=
  match tr.find? (fun p => decide (p.1 = k)) with
  | some p => p.2
  | none => []

/-- The second component of the pair returned by `simulate`: a message
string, a single final state (DFA path) or a final state set (NFA path).
Each message constructor stands for the exact format string in the source:
`invalidSymbol s`  = "Invalid symbol s in input" (machine.py lines 121, 138),
`noTransitionFrom st s` = "No transition from st on s" (machine.py line 129),
`noValidTransitions` = "No valid transitions available" (machine.py line 149). -/
inductive FAMsg where
  | invalidSymbol (sym : String)
  | noTransitionFrom (st : String) (sym : String)
  | noValidTransitions
deriving DecidableEq

inductive FAPayload where
  | msg (m : FAMsg)
  | state (s : String)
  | states (ss : List String)
deriving DecidableEq

/-- Python `set.update(other)`, adding elements of `other` into the set `acc`:
membership-faithful list model of Python set union. -/
def listUnion (acc other : List String) : List String :=
  other.foldl (fun a x => if x ∈ a then a else a ++ [x]) acc

/-- The union `∪ transition(s, symbol) for s in current` computed by the NFA
loop body (machine.py lines 140-144). -/
def unionTransitions (fa : FiniteAutomaton) (cur : List String) (sym : String) :
    List String :=
  cur.foldl (fun acc s => listUnion acc (faLookup fa.transitions (s, sym))) []

/-- Embeds `FiniteAutomaton._simulate_dfa` (machine.py lines 116-131): follows a
single current state; on a multi-target set `next(iter(...))` takes the first
element in the set's iteration order, modelled as the head of the stored
list. -/
def simulate_dfa (fa : FiniteAutomaton) : String → List String → Bool × FAPayload
  | cur, [] => (decide (cur ∈ fa.accept_states), FAPayload.state cur)
  | cur, sym :: rest =>
    if sym ∉ fa.symbols then (false, FAPayload.msg (FAMsg.invalidSymbol sym))
    else
      match faLookup fa.transitions (cur, sym) with
      | [] => (false, FAPayload.msg (FAMsg.noTransitionFrom cur sym))
      | t :: _ => simulate_dfa fa t rest

/-- Embeds `FiniteAutomaton._simulate_nfa` (machine.py lines 133-153): state-set
simulation with epsilon closure after each consumed symbol; an empty union
rejects immediately. -/
def simulate_nfa (fa : FiniteAutomaton) : List String → List String → Bool × FAPayload
  | cur, [] => (decide ((cur.inter fa.accept_states) ≠ []), FAPayload.states cur)
  | cur, sym :: rest =>
    if sym ∉ fa.symbols then (false, FAPayload.msg (FAMsg.invalidSymbol sym))
    else
      let nxt := unionTransitions fa cur sym
      if nxt = [] then (false, FAPayload.msg FAMsg.noValidTransitions)
      else simulate_nfa fa (epsilon_closure fa.epsilon_transitions nxt) rest

/-- Embeds `FiniteAutomaton.simulate` (machine.py lines 110-114): dispatch on the
declared type. -/
def FiniteAutomaton.simulate (fa : FiniteAutomaton) (input : List String) :
    Bool × FAPayload :=
  if fa.type = "DFA" then simulate_dfa fa fa.start_state input
  else simulate_nfa fa (epsilon_closure fa.epsilon_transitions [fa.start_state]) input

/-! Specification-side state-set semantics, written from the spec's words
(section 4.2): `next = ∪ transition(s, symbol) for s in current`; if `next`
is empty the run is rejected immediately with reason NoTransition; otherwise
`current = closure(next)`; after consuming all input accept iff
`current ∩ acceptStates ≠ ∅`, starting from `closure({start})`. -/

def specNext (fa : FiniteAutomaton) (cur : List String) (sym : String) :
    List String :=
  (cur.map (fun s => faLookup fa.transitions (s, sym))).flatten

/-- Runs the spec's state-set semantics; `none` means the run died with
reason NoTransition. -/
def specRun (fa : FiniteAutomaton) : List String → List String → Option (List String)
  | cur, [] => some cur
  | cur, sym :: rest =>
    let nxt := specNext fa cur sym
    if nxt = [] then none
    else specRun fa (epsilon_closure fa.epsilon_transitions nxt) rest

def specStart (fa : FiniteAutomaton) : List String :=
  epsilon_closure fa.epsilon_transitions [fa.start_state]

/-- Acceptance as the claim states it: the state set reached after consuming
the whole input intersects the accept states. -/
def specAccepts (fa : FiniteAutomaton) (input : List String) : Bool :=
  match specRun fa (specStart fa) input with
  | none => false
  | some fin => decide (∃ s ∈ fin, s ∈ fa.accept_states)

/-- The run died with reason NoTransition under the spec semantics. -/
def specDied (fa : FiniteAutomaton) (input : List String) : Prop :=
  specRun fa (specStart fa) input = none

/-- Both rejection messages of the batch engine that report a missing
transition. -/
def isNoTransitionMsg : FAPayload → Bool
  | FAPayload.msg (FAMsg.noTransitionFrom _ _) => true
  | FAPayload.msg FAMsg.noValidTransitions => true
  | _ => false

theorem mem_listUnion (other : List String) : ∀ acc x,
    x ∈ listUnion acc other ↔ x ∈ acc ∨ x ∈ other := by
  induction other with
  | nil => intro acc x; simp [listUnion]
  | cons t ts ih =>
    intro acc x
    unfold listUnion at ih ⊢
    rw [List.foldl_cons]
    by_cases ht : t ∈ acc
    · rw [if_pos ht]
      rw [ih acc x]
      constructor
      · rintro (h | h)
        · exact Or.inl h
        · exact Or.inr (List.mem_cons_of_mem t h)
      · rintro (h | h)
        · exact Or.inl h
        · rcases List.mem_cons.mp h with h' | h'
          · exact Or.inl (h' ▸ ht)
          · exact Or.inr h'
    · rw [if_neg ht]
      rw [ih (acc ++ [t]) x]
      constructor
      · rintro (h | h)
        · rcases List.mem_append.mp h with h' | h'
          · exact Or.inl h'
          · exact Or.inr (List.mem_cons.mpr (Or.inl (by simpa using h')))
        · exact Or.inr (List.mem_cons_of_mem t h)
      · rintro (h | h)
        · exact Or.inl (List.mem_append_left _ h)
        · rcases List.mem_cons.mp h with h' | h'
          · exact Or.inl (List.mem_append_right _ (by simp [h']))
          · exact Or.inr h'

theorem mem_unionTransitions (fa : FiniteAutomaton) (sym : String) :
    ∀ (cur : List String) (x : String),
    x ∈ unionTransitions fa cur sym ↔ ∃ s ∈ cur, x ∈ faLookup fa.transitions (s, sym) := by
  have main : ∀ (cur : List String) (acc : List String) (x : String),
      x ∈ cur.foldl (fun acc s => listUnion acc (faLookup fa.transitions (s, sym))) acc ↔
      x ∈ acc ∨ ∃ s ∈ cur, x ∈ faLookup fa.transitions (s, sym) := by
    intro cur
    induction cur with
    | nil => intro acc x; simp
    | cons c cs ih =>
      intro acc x
      rw [List.foldl_cons, ih, mem_listUnion]
      constructor
      · rintro ((h | h) | h)
        · exact Or.inl h
        · exact Or.inr ⟨c, List.mem_cons_self c cs, h⟩
        · obtain ⟨s, hs, hx⟩ := h
          exact Or.inr ⟨s, List.mem_cons_of_mem c hs, hx⟩
      · rintro (h | h)
        · exact Or.inl (Or.inl h)
        · obtain ⟨s, hs, hx⟩ := h
          rcases List.mem_cons.mp hs with h' | h'
          · exact Or.inl (Or.inr (h' ▸ hx))
          · exact Or.inr ⟨s, h', hx⟩
  intro cur x
  rw [unionTransitions, main]
  simp

theorem mem_specNext (fa : FiniteAutomaton) (cur : List String) (sym : String)
    (x : String) :
    x ∈ specNext fa cur sym ↔ ∃ s ∈ cur, x ∈ faLookup fa.transitions (s, sym) := by
  unfold specNext
  rw [List.mem_flatten]
  constructor
  · rintro ⟨l, hl, hx⟩
    obtain ⟨s, hs, rfl⟩ := List.mem_map.mp hl
    exact ⟨s, hs, hx⟩
  · rintro ⟨s, hs, hx⟩
    exact ⟨faLookup fa.transitions (s, sym), List.mem_map.mpr ⟨s, hs, rfl⟩, hx⟩

theorem eqmem_nil_iff {a b : List String} (h : ∀ x, x ∈ a ↔ x ∈ b) :
    a = [] ↔ b = [] := by
  constructor
  · intro ha
    apply List.eq_nil_iff_forall_not_mem.mpr
    intro x hx
    exact List.eq_nil_iff_forall_not_mem.mp ha x ((h x).mpr hx)
  · intro hb
    apply List.eq_nil_iff_forall_not_mem.mpr
    intro x hx
    exact List.eq_nil_iff_forall_not_mem.mp hb x ((h x).mp hx)

theorem mem_epsilon_closure_congr (eps : List (String × List String))
    {S T : List String} (h : ∀ x, x ∈ S ↔ x ∈ T) (x : String) :
    x ∈ epsilon_closure eps S ↔ x ∈ epsilon_closure eps T := by
  rw [mem_epsilon_closure, mem_epsilon_closure, epsReach_congr eps S T h]

theorem mem_epsilon_closure_nil (L : List String) (x : String) :
    x ∈ epsilon_closure [] L ↔ x ∈ L := by
  rw [mem_epsilon_closure]
  constructor
  · intro hx
    induction hx with
    | @base z hb => exact hb
    | @step s z hprev hy ih => simp [epsLookup, List.find?] at hy
  · exact fun hx => EpsReach.base hx

/-- The verdict of the spec-side state-set semantics as a Bool, given the
state set to start from. -/
def specVerdictFrom (fa : FiniteAutomaton) (SL : List String)
    (input : List String) : Bool :=
  match specRun fa SL input with
  | none => false
  | some fin => decide (∃ s ∈ fin, s ∈ fa.accept_states)

/-- The NFA path of the batch engine agrees with the spec's state-set
semantics on alphabet-valid input, starting from membership-equal state
sets; when the spec run dies, the engine rejects with the
NoTransition message. -/
theorem simulate_nfa_spec (fa : FiniteAutomaton) :
    ∀ (input CL SL : List String), (∀ x, x ∈ CL ↔ x ∈ SL) →
    (∀ s ∈ input, s ∈ fa.symbols) →
    ((simulate_nfa fa CL input).1 = specVerdictFrom fa SL input) ∧
    (specRun fa SL input = none →
      simulate_nfa fa CL input = (false, FAPayload.msg FAMsg.noValidTransitions)) := by
  intro input
  induction input with
  | nil =>
    intro CL SL hequiv hvalid
    refine ⟨?_, by intro h; simp [specRun] at h⟩
    simp only [simulate_nfa, specVerdictFrom, specRun]
    apply decide_eq_decide.mpr
    rw [Ne, List.eq_nil_iff_forall_not_mem]
    push_neg
    constructor
    · rintro ⟨x, hx⟩
      have hx' : x ∈ CL ∧ x ∈ fa.accept_states := List.mem_inter_iff.mp hx
      exact ⟨x, (hequiv x).mp hx'.1, hx'.2⟩
    · rintro ⟨s, hs, hacc⟩
      exact ⟨s, List.mem_inter_iff.mpr ⟨(hequiv s).mpr hs, hacc⟩⟩
  | cons sym rest ih =>
    intro CL SL hequiv hvalid
    have hsymval : sym ∈ fa.symbols := hvalid sym (List.mem_cons_self _ _)
    have hnotnot : ¬(sym ∉ fa.symbols) := fun h => h hsymval
    have hnext : ∀ x, x ∈ unionTransitions fa CL sym ↔ x ∈ specNext fa SL sym := by
      intro x
      rw [mem_unionTransitions, mem_specNext]
      constructor
      · rintro ⟨s, hs, hx⟩; exact ⟨s, (hequiv s).mp hs, hx⟩
      · rintro ⟨s, hs, hx⟩; exact ⟨s, (hequiv s).mpr hs, hx⟩
    have hnil : (unionTransitions fa CL sym = []) ↔ (specNext fa SL sym = []) :=
      eqmem_nil_iff hnext
    have hvalid' : ∀ s ∈ rest, s ∈ fa.symbols :=
      fun s hs => hvalid s (List.mem_cons_of_mem sym hs)
    by_cases hemp : unionTransitions fa CL sym = []
    · have hemp' := hnil.mp hemp
      constructor
      · simp [simulate_nfa, specVerdictFrom, specRun, hnotnot, hemp, hemp']
      · intro _
        simp [simulate_nfa, hnotnot, hemp]
    · have hemp' : ¬ specNext fa SL sym = [] := fun h => hemp (hnil.mpr h)
      have hclos : ∀ x, x ∈ epsilon_closure fa.epsilon_transitions
          (unionTransitions fa CL sym) ↔
          x ∈ epsilon_closure fa.epsilon_transitions (specNext fa SL sym) :=
        mem_epsilon_closure_congr fa.epsilon_transitions hnext
      obtain ⟨g1, g2⟩ := ih (epsilon_closure fa.epsilon_transitions
        (unionTransitions fa CL sym))
        (epsilon_closure fa.epsilon_transitions (specNext fa SL sym)) hclos hvalid'
      constructor
      · simp only [simulate_nfa, specVerdictFrom, specRun] at g1 ⊢
        rw [if_neg hnotnot]
        simp only [hemp, if_false, hemp', if_neg hemp, if_neg hemp']
        exact g1
      · intro hdied
        simp only [specRun, if_neg hemp'] at hdied
        simp only [simulate_nfa]
        rw [if_neg hnotnot]
        simp only [if_neg hemp]
        exact g2 hdied

/-- The DFA path of the batch engine agrees with the spec's state-set
semantics on alphabet-valid input, provided every stored transition-target
set is a singleton and the machine has no epsilon edges (as holds for every
DFA-typed machine built by the loader). -/
theorem simulate_dfa_spec (fa : FiniteAutomaton)
    (hdet : ∀ k, (faLookup fa.transitions k).length ≤ 1)
    (heps : fa.epsilon_transitions = []) :
    ∀ (input : List String) (cur : String) (SL : List String),
    (∀ x, x ∈ SL ↔ x = cur) → (∀ s ∈ input, s ∈ fa.symbols) →
    ((simulate_dfa fa cur input).1 = specVerdictFrom fa SL input) ∧
    (specRun fa SL input = none →
      (simulate_dfa fa cur input).1 = false ∧
      isNoTransitionMsg (simulate_dfa fa cur input).2 = true) := by
  intro input
  induction input with
  | nil =>
    intro cur SL hequiv hvalid
    refine ⟨?_, by intro h; simp [specRun] at h⟩
    simp only [simulate_dfa, specVerdictFrom, specRun]
    apply decide_eq_decide.mpr
    constructor
    · intro hacc
      exact ⟨cur, (hequiv cur).mpr rfl, hacc⟩
    · rintro ⟨s, hs, hacc⟩
      exact ((hequiv s).mp hs) ▸ hacc
  | cons sym rest ih =>
    intro cur SL hequiv hvalid
    have hsymval : sym ∈ fa.symbols := hvalid sym (List.mem_cons_self _ _)
    have hnotnot : ¬(sym ∉ fa.symbols) := fun h => h hsymval
    have hvalid' : ∀ s ∈ rest, s ∈ fa.symbols :=
      fun s hs => hvalid s (List.mem_cons_of_mem sym hs)
    have hnext : ∀ x, x ∈ specNext fa SL sym ↔ x ∈ faLookup fa.transitions (cur, sym) := by
      intro x
      rw [mem_specNext]
      constructor
      · rintro ⟨s, hs, hx⟩
        exact ((hequiv s).mp hs) ▸ hx
      · intro hx
        exact ⟨cur, (hequiv cur).mpr rfl, hx⟩
    rcases hlk : faLookup fa.transitions (cur, sym) with _ | ⟨t, ts⟩
    · have hemp : specNext fa SL sym = [] := by
        apply List.eq_nil_iff_forall_not_mem.mpr
        intro x hx
        have := (hnext x).mp hx
        rw [hlk] at this
        simp at this
      constructor
      · simp [simulate_dfa, specVerdictFrom, specRun, hnotnot, hlk, hemp]
      · intro _
        simp [simulate_dfa, hnotnot, hlk, isNoTransitionMsg]
    · have hts : ts = [] := by
        have := hdet (cur, sym)
        rw [hlk] at this
        simp at this
        exact this
      subst hts
      have hsingle : ∀ x, x ∈ specNext fa SL sym ↔ x = t := by
        intro x
        rw [hnext, hlk]
        simp
      have hne : ¬ specNext fa SL sym = [] := by
        intro h
        exact List.eq_nil_iff_forall_not_mem.mp h t ((hsingle t).mpr rfl)
      have hclos : ∀ x, x ∈ epsilon_closure fa.epsilon_transitions
          (specNext fa SL sym) ↔ x = t := by
        intro x
        rw [heps, mem_epsilon_closure_nil]
        exact hsingle x
      obtain ⟨g1, g2⟩ := ih t (epsilon_closure fa.epsilon_transitions
        (specNext fa SL sym)) hclos hvalid'
      constructor
      · simp only [simulate_dfa, specVerdictFrom, specRun] at g1 ⊢
        rw [if_neg hnotnot, hlk]
        simp only [if_neg hne]
        exact g1
      · intro hdied
        simp only [specRun, if_neg hne] at hdied
        simp only [simulate_dfa]
        rw [if_neg hnotnot, hlk]
        exact g2 hdied

/-- With no epsilon edges the worklist loop only drains its queue. -/
theorem closureLoop_no_eps : ∀ cl q, closureLoop [] cl q = cl := by
  intro cl q
  induction cl, q using closureLoop.induct [] with
  | case1 cl => rw [closureLoop]
  | case2 cl s rest r ih =>
    rw [closureLoop]
    have hr : r = (cl, rest) := by
      show enqueueFresh cl rest (epsLookup [] s) = (cl, rest)
      simp [epsLookup, List.find?, enqueueFresh]
    rw [show r.1 = cl by rw [hr], show r.2 = rest by rw [hr]] at ih ⊢
    exact ih

/-- Embeds `FiniteAutomaton.get_possible_transitions` (secvential_input.py lines
131-140): union of the per-state transition sets, epsilon-closed only when
non-empty. -/
def get_possible_transitions (fa : FiniteAutomaton) (cur : List String)
    (sym : String) : List String :=
  let nxt := unionTransitions fa cur sym
  if nxt = [] then [] else epsilon_closure fa.epsilon_transitions nxt

/-- Outcome of feeding a symbol sequence to the interactive loop: either the
loop announced ACCEPTED and exited early (secvential_input.py lines 224-228),
or it consumed all offered symbols and is still prompting. -/
inductive StepOutcome where
  | acceptedEarly (cur : List String)
  | pending (cur : List String)
deriving DecidableEq

/-- The symbol-processing path of `FiniteAutomaton.interactive_simulation`
(secvential_input.py lines 196-231) applied to a fixed symbol sequence:
an out-of-alphabet symbol is refused and not consumed (line 204-206), a
symbol with no available transitions is refused and the configuration is
left unchanged (lines 211-215), otherwise the configuration is updated and
the loop exits with ACCEPTED as soon as it intersects the accept set. -/
def interactive_simulation (fa : FiniteAutomaton) :
    List String → List String → StepOutcome
  | cur, [] => StepOutcome.pending cur
  | cur, sym :: rest =>
    if sym ∉ fa.symbols then interactive_simulation fa cur rest
    else
      let nxt := get_possible_transitions fa cur sym
      if nxt = [] then interactive_simulation fa cur rest
      else if nxt.inter fa.accept_states ≠ [] then StepOutcome.acceptedEarly nxt
      else interactive_simulation fa nxt rest

/-- The stepper's initial configuration (secvential_input.py lines 163-167). -/
def stepper_start (fa : FiniteAutomaton) : List String :=
  if fa.type = "DFA" then [fa.start_state]
  else epsilon_closure fa.epsilon_transitions [fa.start_state]

/-- The state-set evolution of the batch NFA loop over an alphabet-valid
prefix (machine.py lines 140-151, the loop body without its return
statements); `none` means the union emptied and the run died. -/
def nfa_states (fa : FiniteAutomaton) : List String → List String → Option (List String)
  | cur, [] => some cur
  | cur, sym :: rest =>
    let nxt := unionTransitions fa cur sym
    if nxt = [] then none
    else nfa_states fa (epsilon_closure fa.epsilon_transitions nxt) rest

theorem simulate_nfa_append (fa : FiniteAutomaton) :
    ∀ (pre : List String) (cur cur' : List String) (rest : List String),
    (∀ s ∈ pre, s ∈ fa.symbols) → nfa_states fa cur pre = some cur' →
    simulate_nfa fa cur (pre ++ rest) = simulate_nfa fa cur' rest := by
  intro pre
  induction pre with
  | nil =>
    intro cur cur' rest _ hst
    simp only [nfa_states, Option.some.injEq] at hst
    rw [List.nil_append, hst]
  | cons sym pre ih =>
    intro cur cur' rest hvalid hst
    have hsymval : sym ∈ fa.symbols := hvalid sym (List.mem_cons_self _ _)
    have hnotnot : ¬(sym ∉ fa.symbols) := fun h => h hsymval
    simp only [nfa_states] at hst
    by_cases hemp : unionTransitions fa cur sym = []
    · rw [if_pos hemp] at hst
      cases hst
    · rw [if_neg hemp] at hst
      have := ih (epsilon_closure fa.epsilon_transitions (unionTransitions fa cur sym))
        cur' rest (fun s hs => hvalid s (List.mem_cons_of_mem sym hs)) hst
      rw [List.cons_append]
      simp only [simulate_nfa]
      rw [if_neg hnotnot]
      simp only [if_neg hemp]
      exact this

/-- The loader invariant for a DFA-typed machine together with the amended
determinism condition: no epsilon edges and every stored target set a
singleton. -/
def dfaUnambiguous (fa : FiniteAutomaton) : Prop :=
  (∀ k, (faLookup fa.transitions k).length ≤ 1) ∧ fa.epsilon_transitions = []

/-- Claim C1 (amended): for every definition and every input whose symbols
are all in the declared alphabet, provided the machine is NFA-typed or is a
DFA-typed machine with singleton transition-target sets and no epsilon
edges, `simulate` accepts exactly when the state set reached after consuming
the whole input (starting from the epsilon closure of the start state and
epsilon-closing after each symbol) intersects the accept states, and when
the union of transitions out of the current state set is empty the run is
rejected immediately with a NoTransition reason. -/
theorem simulate_matches_state_set_semantics (fa : FiniteAutomaton)
    (input : List String) (hvalid : ∀ s ∈ input, s ∈ fa.symbols)
    (hok : fa.type ≠ "DFA" ∨ dfaUnambiguous fa) :
    ((fa.simulate input).1 = specAccepts fa input) ∧
    (specDied fa input →
      (fa.simulate input).1 = false ∧ isNoTransitionMsg (fa.simulate input).2 = true) := by
  unfold FiniteAutomaton.simulate
  by_cases hty : fa.type = "DFA"
  · rcases hok with h | ⟨hdet, heps⟩
    · exact absurd hty h
    · rw [if_pos hty]
      have hstart : ∀ x, x ∈ specStart fa ↔ x = fa.start_state := by
        intro x
        unfold specStart
        rw [heps, mem_epsilon_closure_nil]
        simp
      obtain ⟨g1, g2⟩ := simulate_dfa_spec fa hdet heps input fa.start_state
        (specStart fa) hstart hvalid
      exact ⟨g1, g2⟩
  · rw [if_neg hty]
    obtain ⟨g1, g2⟩ := simulate_nfa_spec fa input (specStart fa) (specStart fa)
      (fun x => Iff.rfl) hvalid
    refine ⟨g1, fun hd => ?_⟩
    have hss : epsilon_closure fa.epsilon_transitions [fa.start_state] = specStart fa := rfl
    rw [hss, g2 hd]
    exact ⟨rfl, rfl⟩

/-- A DFA-typed machine in which `(q0, a)` has the two targets
`{q1, q2}`, stored in iteration order `q2` first; accepting `q1`. -/
def faAmb : FiniteAutomaton :=
  { states := ["q0", "q1", "q2"], symbols := ["a"],
    transitions := [(("q0", "a"), ["q2", "q1"])],
    epsilon_transitions := [], start_state := "q0",
    accept_states := ["q1"], type := "DFA" }

/-- Claim C1 counterexample: on the ambiguous DFA-typed machine `faAmb`,
`simulate` follows the single arbitrarily-picked branch and rejects the
input "a", while the state-set semantics the claim describes reaches
`{q2, q1}`, which intersects the accept states, so the claim's acceptance
condition says accept. -/
theorem dfa_dispatch_breaks_state_set_semantics :
    (faAmb.simulate ["a"]).1 = false ∧ specAccepts faAmb ["a"] = true := by
  constructor
  · decide
  · have hclos : ∀ L : List String,
        epsilon_closure faAmb.epsilon_transitions L = L := by
      intro L
      show closureLoop [] L L = L
      exact closureLoop_no_eps L L
    unfold specAccepts specStart specRun
    rw [hclos]
    have hnext : specNext faAmb [faAmb.start_state] "a" = ["q2", "q1"] := by
      simp [specNext, faLookup, faAmb, List.find?]
    rw [hnext]
    simp only [if_neg (by decide : ¬(["q2", "q1"] : List String) = [])]
    rw [hclos]
    unfold specRun
    decide

/-- Scenario-2 machine of the spec: epsilon from `q0` to `q1`, `q1 -a-> q2`,
accepting `q2`. -/
def faScen2 : FiniteAutomaton :=
  { states := ["q0", "q1", "q2"], symbols := ["a"],
    transitions := [(("q1", "a"), ["q2"])],
    epsilon_transitions := [("q0", ["q1"])],
    start_state := "q0", accept_states := ["q2"], type := "NFA" }

theorem simulate_matches_state_set_semantics_witness :
    ("a" ∈ faScen2.symbols ∧ faScen2.type ≠ "DFA") ∧
    ((faScen2.simulate ["a"]).1 = specAccepts faScen2 ["a"]) :=
  ⟨⟨by decide, by decide⟩,
    (simulate_matches_state_set_semantics faScen2 ["a"] (by
      intro s hs
      simp at hs
      simp [hs, faScen2]) (Or.inl (by decide))).1⟩

/-- The single-state evolution of the batch DFA loop over an alphabet-valid
prefix (machine.py lines 119-129, the loop body without its return
statements); `none` means no transition was defined and the run died. -/
def dfa_states (fa : FiniteAutomaton) : String → List String → Option String
  | cur, [] => some cur
  | cur, sym :: rest =>
    match faLookup fa.transitions (cur, sym) with
    | [] => none
    | t :: _ => dfa_states fa t rest

theorem simulate_dfa_append (fa : FiniteAutomaton) :
    ∀ (pre : List String) (cur cur' : String) (rest : List String),
    (∀ s ∈ pre, s ∈ fa.symbols) → dfa_states fa cur pre = some cur' →
    simulate_dfa fa cur (pre ++ rest) = simulate_dfa fa cur' rest := by
  intro pre
  induction pre with
  | nil =>
    intro cur cur' rest _ hst
    simp only [dfa_states, Option.some.injEq] at hst
    rw [List.nil_append, hst]
  | cons sym pre ih =>
    intro cur cur' rest hvalid hst
    have hsymval : sym ∈ fa.symbols := hvalid sym (List.mem_cons_self _ _)
    have hnotnot : ¬(sym ∉ fa.symbols) := fun h => h hsymval
    simp only [dfa_states] at hst
    rcases hlk : faLookup fa.transitions (cur, sym) with _ | ⟨t, ts⟩
    · rw [hlk] at hst
      cases hst
    · rw [hlk] at hst
      rw [List.cons_append]
      simp only [simulate_dfa]
      rw [if_neg hnotnot, hlk]
      exact ih t cur' rest (fun s hs => hvalid s (List.mem_cons_of_mem sym hs)) hst

/-- The configuration reached by the batch engine after an alphabet-valid
prefix, following the dispatch of `simulate`: the DFA path's single state
wrapped as a singleton set, or the NFA path's state set; `none` means the
run died on a missing transition inside the prefix. -/
def sim_states (fa : FiniteAutomaton) (pre : List String) : Option (List String) :=
  if fa.type = "DFA" then (dfa_states fa fa.start_state pre).map (fun s => [s])
  else nfa_states fa (specStart fa) pre

/-- Claim C5 (amended): for every finite-automaton simulation — DFA-typed or
NFA-typed — an out-of-alphabet symbol that the per-symbol loop actually
reaches (every earlier symbol kept the run alive) makes `simulate` fail with
the InvalidSymbol result carrying that symbol; that result is not a
NoTransition rejection message of either path, nor an ordinary
final-configuration payload. -/
theorem invalid_symbol_reported_when_reached (fa : FiniteAutomaton)
    (pre : List String) (sym : String) (rest : List String) (cur' : List String)
    (hpre : ∀ s ∈ pre, s ∈ fa.symbols) (hsym : sym ∉ fa.symbols)
    (halive : sim_states fa pre = some cur') :
    fa.simulate (pre ++ sym :: rest) = (false, FAPayload.msg (FAMsg.invalidSymbol sym)) ∧
    isNoTransitionMsg (FAPayload.msg (FAMsg.invalidSymbol sym)) = false ∧
    FAPayload.msg (FAMsg.invalidSymbol sym) ≠ FAPayload.states cur' := by
  by_cases hty : fa.type = "DFA"
  · unfold sim_states at halive
    rw [if_pos hty] at halive
    rcases hd : dfa_states fa fa.start_state pre with _ | c
    · rw [hd] at halive
      simp at halive
    · rw [hd] at halive
      refine ⟨?_, rfl, ?_⟩
      · unfold FiniteAutomaton.simulate
        rw [if_pos hty]
        rw [simulate_dfa_append fa pre fa.start_state c (sym :: rest) hpre hd]
        simp only [simulate_dfa]
        rw [if_pos hsym]
      · intro h
        cases h
  · unfold sim_states at halive
    rw [if_neg hty] at halive
    refine ⟨?_, rfl, ?_⟩
    · unfold FiniteAutomaton.simulate
      rw [if_neg hty]
      have hss : epsilon_closure fa.epsilon_transitions [fa.start_state] = specStart fa := rfl
      rw [hss, simulate_nfa_append fa pre (specStart fa) cur' (sym :: rest) hpre halive]
      simp only [simulate_nfa]
      rw [if_pos hsym]
    · intro h
      cases h

/-- An NFA-typed machine with an empty transition dict: symbol `a` is
declared but has no outgoing transition anywhere. -/
def faM5 : FiniteAutomaton :=
  { states := ["q0"], symbols := ["a"], transitions := [],
    epsilon_transitions := [("q0", ["q0"])],
    start_state := "q0", accept_states := ["q0"], type := "NFA" }

theorem faM5_closure_q0 :
    epsilon_closure faM5.epsilon_transitions ["q0"] = ["q0"] := by
  show closureLoop faM5.epsilon_transitions ["q0"] ["q0"] = ["q0"]
  rw [closureLoop]
  have h1 : enqueueFresh ["q0"] [] (epsLookup faM5.epsilon_transitions "q0") = (["q0"], []) := by
    simp [epsLookup, faM5, List.find?, enqueueFresh]
  rw [show (enqueueFresh ["q0"] [] (epsLookup faM5.epsilon_transitions "q0")).1 = ["q0"]
      from by rw [h1],
    show (enqueueFresh ["q0"] [] (epsLookup faM5.epsilon_transitions "q0")).2 = []
      from by rw [h1]]
  rw [closureLoop]

/-- Claim C5 counterexample: the input "ax" contains the out-of-alphabet
symbol "x", yet the batch engine rejects it with the NoTransition message
(the union on "a" empties first) and not with the InvalidSymbol result the
claim promises for every input containing an out-of-alphabet symbol. -/
theorem invalid_symbol_masked_by_no_transition :
    ("x" ∉ faM5.symbols) ∧
    faM5.simulate ["a", "x"] = (false, FAPayload.msg FAMsg.noValidTransitions) ∧
    faM5.simulate ["a", "x"] ≠ (false, FAPayload.msg (FAMsg.invalidSymbol "x")) := by
  have hrun : faM5.simulate ["a", "x"] = (false, FAPayload.msg FAMsg.noValidTransitions) := by
    unfold FiniteAutomaton.simulate
    rw [if_neg (by decide : ¬ faM5.type = "DFA"),
      show [faM5.start_state] = ["q0"] from rfl, faM5_closure_q0]
    simp only [simulate_nfa]
    rw [if_neg (by decide : ¬("a" ∉ faM5.symbols))]
    simp only [if_pos (by decide : unionTransitions faM5 ["q0"] "a" = [])]
  exact ⟨by decide, hrun, by rw [hrun]; decide⟩

/-- Two DFA-typed machines whose fields denote exactly the same sets — in
particular the same transition dict `(q0, a) -> {q1, q2}` — differing only
in the iteration order of the stored target set. -/
def faD1 : FiniteAutomaton :=
  { states := ["q0", "q1", "q2"], symbols := ["a"],
    transitions := [(("q0", "a"), ["q1", "q2"])],
    epsilon_transitions := [], start_state := "q0",
    accept_states := ["q1"], type := "DFA" }

def faD2 : FiniteAutomaton :=
  { states := ["q0", "q1", "q2"], symbols := ["a"],
    transitions := [(("q0", "a"), ["q2", "q1"])],
    epsilon_transitions := [], start_state := "q0",
    accept_states := ["q1"], type := "DFA" }

/-- Claim C8: the DFA path picks `next(iter(...))`, the first element in the
set's iteration order. `faD1` and `faD2` define identical machines
set-wise, yet `simulate` accepts "a" on one and rejects it on the other, so
the result is not a function of the definition: there is no deterministic
tie-break and runs under different set iteration orders disagree. -/
theorem dfa_pick_order_dependent :
    (faD1.states = faD2.states ∧ faD1.symbols = faD2.symbols ∧
     faD1.start_state = faD2.start_state ∧ faD1.accept_states = faD2.accept_states ∧
     faD1.type = faD2.type ∧ faD1.epsilon_transitions = faD2.epsilon_transitions ∧
     (∀ k x, x ∈ faLookup faD1.transitions k ↔ x ∈ faLookup faD2.transitions k)) ∧
    faD1.simulate ["a"] ≠ faD2.simulate ["a"] := by
  refine ⟨⟨rfl, rfl, rfl, rfl, rfl, rfl, ?_⟩, by decide⟩
  intro k x
  by_cases hk : (("q0", "a") : String × String) = k
  · simp only [faD1, faD2, faLookup, List.find?, hk]
    simp [List.mem_cons]
    tauto
  · have hd : decide ((("q0", "a") : String × String) = k) = false := by
      simp [hk]
    simp [faD1, faD2, faLookup, List.find?, hd]

theorem invalid_symbol_reported_when_reached_witness :
    ("a" ∈ faD1.symbols ∧ "x" ∉ faD1.symbols ∧ faD1.type = "DFA") ∧
    (faD1.simulate (["a"] ++ "x" :: []) = (false, FAPayload.msg (FAMsg.invalidSymbol "x")) ∧
     isNoTransitionMsg (FAPayload.msg (FAMsg.invalidSymbol "x")) = false ∧
     FAPayload.msg (FAMsg.invalidSymbol "x") ≠ FAPayload.states ["q1"]) :=
  ⟨⟨by decide, by decide, by decide⟩,
    invalid_symbol_reported_when_reached faD1 ["a"] "x" [] ["q1"]
      (by decide) (by decide) rfl⟩

/-- The C2 machine: `q0 -b-> q1`, accepting `q1`; symbol `a` is declared but
has no transition anywhere; a harmless epsilon self-loop makes the machine
NFA-typed so both the batch run and the stepper use state sets. -/
def faM2 : FiniteAutomaton :=
  { states := ["q0", "q1"], symbols := ["a", "b"],
    transitions := [(("q0", "b"), ["q1"])],
    epsilon_transitions := [("q0", ["q0"])],
    start_state := "q0", accept_states := ["q1"], type := "NFA" }

theorem faM2_closure_q0 :
    epsilon_closure faM2.epsilon_transitions ["q0"] = ["q0"] := by
  show closureLoop faM2.epsilon_transitions ["q0"] ["q0"] = ["q0"]
  rw [closureLoop]
  have h1 : enqueueFresh ["q0"] [] (epsLookup faM2.epsilon_transitions "q0") = (["q0"], []) := by
    simp [epsLookup, faM2, List.find?, enqueueFresh]
  rw [show (enqueueFresh ["q0"] [] (epsLookup faM2.epsilon_transitions "q0")).1 = ["q0"]
      from by rw [h1],
    show (enqueueFresh ["q0"] [] (epsLookup faM2.epsilon_transitions "q0")).2 = []
      from by rw [h1]]
  rw [closureLoop]

theorem faM2_closure_q1 :
    epsilon_closure faM2.epsilon_transitions ["q1"] = ["q1"] := by
  show closureLoop faM2.epsilon_transitions ["q1"] ["q1"] = ["q1"]
  rw [closureLoop]
  have h1 : enqueueFresh ["q1"] [] (epsLookup faM2.epsilon_transitions "q1") = (["q1"], []) := by
    simp [epsLookup, faM2, List.find?, enqueueFresh]
  rw [show (enqueueFresh ["q1"] [] (epsLookup faM2.epsilon_transitions "q1")).1 = ["q1"]
      from by rw [h1],
    show (enqueueFresh ["q1"] [] (epsLookup faM2.epsilon_transitions "q1")).2 = []
      from by rw [h1]]
  rw [closureLoop]

/-- Claim C2: on the machine `faM2` and input "ab", the batch simulate dies
at "a" (NoTransition, whole run rejected), while the stepper refuses the
unconsumable "a" leaving its configuration unchanged, then consumes "b",
reaches the accepting configuration `{q1}` and announces ACCEPTED — a
different final configuration and the opposite outcome, because the two
paths do not implement the same missing-transition policy. -/
theorem stepper_diverges_from_batch :
    faM2.simulate ["a", "b"] = (false, FAPayload.msg FAMsg.noValidTransitions) ∧
    interactive_simulation faM2 (stepper_start faM2) ["a", "b"] =
      StepOutcome.acceptedEarly ["q1"] := by
  have hstart : stepper_start faM2 = ["q0"] := by
    unfold stepper_start
    rw [if_neg (by decide : ¬ faM2.type = "DFA"),
      show [faM2.start_state] = ["q0"] from rfl, faM2_closure_q0]
  constructor
  · unfold FiniteAutomaton.simulate
    rw [if_neg (by decide : ¬ faM2.type = "DFA"),
      show [faM2.start_state] = ["q0"] from rfl, faM2_closure_q0]
    simp only [simulate_nfa]
    rw [if_neg (by decide : ¬("a" ∉ faM2.symbols))]
    simp only [if_pos (by decide : unionTransitions faM2 ["q0"] "a" = [])]
  · rw [hstart]
    have ha : interactive_simulation faM2 ["q0"] ["a", "b"] =
        interactive_simulation faM2 ["q0"] ["b"] := rfl
    have hgpb : get_possible_transitions faM2 ["q0"] "b" = ["q1"] := by
      unfold get_possible_transitions
      rw [if_neg (by decide : ¬ unionTransitions faM2 ["q0"] "b" = [])]
      rw [show unionTransitions faM2 ["q0"] "b" = ["q1"] from by decide, faM2_closure_q1]
    rw [ha, show interactive_simulation faM2 ["q0"] ["b"] =
        (let nxt := get_possible_transitions faM2 ["q0"] "b";
         if nxt = [] then interactive_simulation faM2 ["q0"] []
         else if nxt.inter faM2.accept_states ≠ [] then StepOutcome.acceptedEarly nxt
         else interactive_simulation faM2 nxt []) from by
      simp only [interactive_simulation]
      rw [if_neg (by decide : ¬("b" ∉ faM2.symbols))]]
    rw [hgpb]
    decide

/-- One transition dict as appended by `PushdownAutomaton.add_transition`
(pda.py lines 10-20). `input` and `stack_top` use the empty string for
epsilon (the parser maps the epsilon spellings to ''); `stack_push` is the
push string represented as its list of one-character symbols in
left-to-right order, matching the source's character iteration. -/
structure PDARule where
  fromState : String
  input : String
  stack_top : String
  toState : String
  stack_push : List String
deriving DecidableEq

structure PushdownAutomaton where
  states : List String
  alphabet : List String
  stack_alphabet : List String
  transitions : List PDARule
  start_state : String
  accept_states : List String
deriving DecidableEq

/-- A configuration `(stare, poziție, stivă)` (pda.py line 27). The stack's
bottom is the head of the list and its top the last element, exactly as in
the source, where `stack[-1]` is the top and `append`/`pop` act at the end. -/
structure PDAConfig where
  state : String
  pos : Nat
  stack : List String
deriving DecidableEq

/-- The successor stack of an applicable rule (pda.py lines 68-79):
copy the stack, pop the top if the rule's stack-top match is not epsilon,
then append the characters of the push string in reversed order. -/
def pdaSuccStack (t : PDARule) (stack : List String) : List String :=
  let s1 := if t.stack_top ≠ "" then stack.dropLast else stack
  t.stack_push.reverse.foldl (fun acc c => acc ++ [c]) s1

/-- The body of the rule loop of `PushdownAutomaton.simulate` (pda.py lines
53-86) for one rule: `none` when one of the guards fires `continue`, the
successor configuration otherwise. The guards appear in source order:
state match, input-symbol match (epsilon always matches), the empty-stack
guard, then the stack-top match; the cursor advances only for a rule that
consumed a real symbol. -/
def pdaRuleStep (input : List String) (c : PDAConfig) (t : PDARule) :
    Option PDAConfig :=
  if t.fromState ≠ c.state then none
  else if t.input ≠ input.getD c.pos "" ∧ t.input ≠ "" then none
  else if c.stack = [] then none
  else if t.stack_top ≠ c.stack.getLastD "" ∧ t.stack_top ≠ "" then none
  else some ⟨t.toState, c.pos + (if t.input ≠ "" then 1 else 0), pdaSuccStack t c.stack⟩

/-- All successor configurations one dequeued configuration appends to the
queue. `input.getD c.pos ""` is `input_string[pos]`, or the empty string once
the cursor is at the end of the input (pda.py lines 42-50). -/
def pdaSuccessors (pda : PushdownAutomaton) (input : List String)
    (c : PDAConfig) : List PDAConfig :=
  pda.transitions.filterMap (pdaRuleStep input c)

/-- The BFS while-loop of `PushdownAutomaton.simulate` (pda.py lines 29-88),
indexed by the number of loop iterations still allowed: `some b` is the
verdict the loop returned within that many iterations, `none` means the loop
is still running (the source has no iteration bound of any kind). -/
def pdaLoop (pda : PushdownAutomaton) (input : List String) :
    Nat → List PDAConfig → List PDAConfig → Option Bool
  | 0, _, _ => none
  | _ + 1, [], _ => some false
  | n + 1, c :: rest, visited =>
    if c ∈ visited then pdaLoop pda input n rest visited
    else if c.pos = input.length ∧ c.state ∈ pda.accept_states then some true
    else pdaLoop pda input n (rest ++ pdaSuccessors pda input c) (visited ++ [c])

/-- Embeds `PushdownAutomaton.simulate` observed for `n` loop iterations, from the
initial configuration `(start_state, 0, ['$'])`. -/
def PushdownAutomaton.simulate (pda : PushdownAutomaton) (input : List String)
    (n : Nat) : Option Bool :=
  pdaLoop pda input n [⟨pda.start_state, 0, ["$"]⟩] []

theorem foldl_append_eq (l : List String) : ∀ acc : List String,
    l.foldl (fun a c => a ++ [c]) acc = acc ++ l := by
  induction l with
  | nil => intro acc; simp
  | cons x xs ih =>
    intro acc
    rw [List.foldl_cons, ih]
    simp

/-- Claim C7 (amended): for every rule and stack, the successor stack is the
conditionally popped stack with the push string appended in reversed
character order, so the push string's leftmost character ends up nearest the
TOP (it is popped first): reading the successor stack top-first gives the
push string in left-to-right order followed by the retained old stack. -/
theorem succ_stack_pop_push_reversed (t : PDARule) (stack : List String) :
    pdaSuccStack t stack =
      (if t.stack_top ≠ "" then stack.dropLast else stack) ++ t.stack_push.reverse ∧
    (pdaSuccStack t stack).reverse =
      t.stack_push ++ (if t.stack_top ≠ "" then stack.dropLast else stack).reverse := by
  have h : pdaSuccStack t stack =
      (if t.stack_top ≠ "" then stack.dropLast else stack) ++ t.stack_push.reverse :=
    foldl_append_eq t.stack_push.reverse _
  refine ⟨h, ?_⟩
  rw [h, List.reverse_append, List.reverse_reverse]

/-- A rule pushing the two-character string "AB" under an epsilon stack-top
match. -/
def ruleC7 : PDARule :=
  { fromState := "q0", input := "", stack_top := "", toState := "q0",
    stack_push := ["A", "B"] }

/-- Claim C7 counterexample: pushing "AB" onto the stack `[$]` yields
`[$, B, A]`: the leftmost character "A" ends up at the top, farthest from
the bottom marker — not nearest the bottom as the claim states, which would
give `[$, A, B]`. -/
theorem push_leftmost_not_near_bottom :
    pdaSuccStack ruleC7 ["$"] = ["$", "B", "A"] ∧
    pdaSuccStack ruleC7 ["$"] ≠ ["$", "A", "B"] := by
  decide

theorem pdaRuleStep_empty_stack (input : List String) (st : String) (pos : Nat)
    (t : PDARule) : pdaRuleStep input ⟨st, pos, []⟩ t = none := by
  unfold pdaRuleStep
  by_cases h1 : t.fromState ≠ st
  · rw [if_pos h1]
  · rw [if_neg h1]
    by_cases h2 : t.input ≠ input.getD pos "" ∧ t.input ≠ ""
    · rw [if_pos h2]
    · rw [if_neg h2, if_pos rfl]

/-- Claim C10: a dequeued configuration whose stack is empty produces no
successor configurations — the `if not stack: continue` guard skips every
rule, including rules whose stack-top match is epsilon, so the stack top is
never inspected and no pop is performed on an empty stack — and the loop
accepts from such a configuration exactly when the cursor is at the end of
the input and the state is an accept state (otherwise the queue simply
continues with the remaining configurations). -/
theorem empty_stack_no_successors (pda : PushdownAutomaton) (input : List String)
    (st : String) (pos : Nat) (rest vis : List PDAConfig) (n : Nat)
    (hv : (⟨st, pos, []⟩ : PDAConfig) ∉ vis) :
    pdaSuccessors pda input ⟨st, pos, []⟩ = [] ∧
    pdaLoop pda input (n + 1) (⟨st, pos, []⟩ :: rest) vis =
      (if pos = input.length ∧ st ∈ pda.accept_states then some true
       else pdaLoop pda input n rest (vis ++ [⟨st, pos, []⟩])) := by
  have hsucc : pdaSuccessors pda input ⟨st, pos, []⟩ = [] := by
    unfold pdaSuccessors
    induction pda.transitions with
    | nil => rfl
    | cons t ts ih =>
      rw [List.filterMap_cons, pdaRuleStep_empty_stack]
      exact ih
  refine ⟨hsucc, ?_⟩
  simp only [pdaLoop]
  rw [if_neg hv]
  by_cases hacc : pos = input.length ∧ st ∈ pda.accept_states
  · rw [if_pos hacc, if_pos hacc]
  · rw [if_neg hacc, if_neg hacc, hsucc, List.append_nil]

/-- A minimal PDA used to instantiate the empty-stack lemma. -/
def pdaTiny : PushdownAutomaton :=
  { states := ["q1"], alphabet := [], stack_alphabet := [],
    transitions := [], start_state := "q1", accept_states := [] }

theorem empty_stack_no_successors_witness :
    ((⟨"q1", 0, []⟩ : PDAConfig) ∉ ([] : List PDAConfig)) ∧
    (pdaSuccessors pdaTiny [] ⟨"q1", 0, []⟩ = [] ∧
     pdaLoop pdaTiny [] 1 (⟨"q1", 0, []⟩ :: []) [] =
       (if (0 : Nat) = ([] : List String).length ∧ "q1" ∈ pdaTiny.accept_states
        then some true
        else pdaLoop pdaTiny [] 0 [] ([] ++ [⟨"q1", 0, []⟩]))) :=
  ⟨by decide, empty_stack_no_successors pdaTiny [] "q1" 0 [] [] 0 (by decide)⟩

/-- An epsilon rule pushing "A" unconditionally. -/
def ruleC3 : PDARule :=
  { fromState := "q0", input := "", stack_top := "",
    toState := "q0", stack_push := ["A"] }

/-- A PDA whose single rule is an epsilon rule pushing "A" unconditionally;
its accept state `q1` is unreachable. The reachable configuration space is
infinite: the stack grows without bound. -/
def pdaC3 : PushdownAutomaton :=
  { states := ["q0", "q1"], alphabet := [], stack_alphabet := ["$", "A"],
    transitions := [ruleC3],
    start_state := "q0", accept_states := ["q1"] }

/-- The configuration reached after `k` iterations of the search on `pdaC3`
with empty input: stack `$ A^k`. -/
def confC3 (k : Nat) : PDAConfig := ⟨"q0", 0, "$" :: List.replicate k "A"⟩

theorem pdaSuccessors_C3 (k : Nat) :
    pdaSuccessors pdaC3 [] (confC3 k) = [confC3 (k + 1)] := by
  have h1 : ¬(ruleC3.fromState ≠ (confC3 k).state) := by
    simp [ruleC3, confC3]
  have h2 : ¬(ruleC3.input ≠ ([] : List String).getD (confC3 k).pos "" ∧
      ruleC3.input ≠ "") := by
    intro h
    exact h.2 rfl
  have h3 : ¬(confC3 k).stack = [] := by
    show ¬("$" :: List.replicate k "A") = []
    exact List.cons_ne_nil _ _
  have h4 : ¬(ruleC3.stack_top ≠ (confC3 k).stack.getLastD "" ∧
      ruleC3.stack_top ≠ "") := by
    intro h
    exact h.2 rfl
  have hstack : pdaSuccStack ruleC3 (confC3 k).stack =
      "$" :: List.replicate (k + 1) "A" := by
    show ("$" :: List.replicate k "A") ++ ["A"] = "$" :: List.replicate (k + 1) "A"
    rw [List.cons_append, List.replicate_succ']
  have hone : pdaRuleStep [] (confC3 k) ruleC3 = some (confC3 (k + 1)) := by
    unfold pdaRuleStep
    rw [if_neg h1, if_neg h2, if_neg h3, if_neg h4, hstack]
    rfl
  show List.filterMap (pdaRuleStep [] (confC3 k)) pdaC3.transitions = [confC3 (k + 1)]
  rw [show pdaC3.transitions = [ruleC3] from rfl]
  rw [List.filterMap_cons, hone]
  rfl

theorem pdaLoop_C3 : ∀ n k,
    pdaLoop pdaC3 [] n [confC3 k] ((List.range k).map confC3) = none := by
  intro n
  induction n with
  | zero => intro k; rfl
  | succ n ih =>
    intro k
    have hnotmem : confC3 k ∉ (List.range k).map confC3 := by
      intro h
      obtain ⟨j, hj, heq⟩ := List.mem_map.mp h
      have hlen : ("$" :: List.replicate j "A").length =
          ("$" :: List.replicate k "A").length := by
        rw [show ("$" :: List.replicate j "A") = (confC3 j).stack from rfl, heq]
        rfl
      simp at hlen
      rw [hlen] at hj
      exact absurd (List.mem_range.mp hj) (lt_irrefl k)
    have hnacc : ¬((confC3 k).pos = ([] : List String).length ∧
        (confC3 k).state ∈ pdaC3.accept_states) := by
      intro h
      have := h.2
      simp [confC3, pdaC3] at this
    simp only [pdaLoop]
    rw [if_neg hnotmem, if_neg hnacc, pdaSuccessors_C3, List.nil_append]
    rw [show (List.range k).map confC3 ++ [confC3 k] = (List.range (k + 1)).map confC3
      from by rw [List.range_succ, List.map_append]; rfl]
    exact ih (k + 1)

/-- Claim C3: `PushdownAutomaton.simulate` takes no configuration ceiling of
any kind, and on `pdaC3` with empty input the BFS loop runs forever: for
every number of iterations the loop is still running, having returned no
verdict — there is no `maxConfigurations` parameter and no
ConfigurationLimitExceeded result, and the call does not terminate. -/
theorem pda_search_never_terminates (n : Nat) :
    pdaC3.simulate [] n = none := by
  unfold PushdownAutomaton.simulate
  rw [show ({ state := pdaC3.start_state, pos := 0, stack := ["$"] } : PDAConfig) =
    confC3 0 from rfl]
  rw [show ([] : List PDAConfig) = (List.range 0).map confC3 from rfl]
  exact pdaLoop_C3 n 0

/-- The distinct outcome paths of `TuringMachine.simulate` (turing.py lines
36-80): acceptance (line 38-40), explicit reject state (lines 42-44), the
implicit reject on a missing transition (lines 50-53), running out of steps
(lines 79-80), and a tape access outside the list bounds, which in the
source raises IndexError instead of returning (see claim C4). -/
inductive TMVerdict where
  | accepted
  | rejectedExplicit
  | rejectedNoTransition
  | timeout
  | indexError
deriving DecidableEq

/-- The Turing-machine definition (turing.py lines 1-19); `transitions` maps
`(state, read_symbol)` to `(to_state, write_symbol, direction)`. -/
structure TuringMachine where
  states : List String
  alphabet : List String
  tape_alphabet : List String
  transitions : List ((String × String) × (String × String × String))
  start_state : String
  accept_states : List String
  reject_states : List String
  blank_symbol : String
deriving DecidableEq

def tmLookup (tr : List ((String × String) × (String × String × String)))
    (k : String × String) : Option (String × String × String) :=
  match tr.find? (fun p => decide (p.1 = k)) with
  | some p => some p.2
  | none => none

/-- Python list read `tape[i]`: a negative index addresses from the end of
the list; an index out of range on either side raises IndexError, modelled
as `none`. -/
def pyGet (tape : List String) (i : Int) : Option String :=
  if 0 ≤ i ∧ i < (tape.length : Int) then some (tape.getD i.toNat "")
  else if -(tape.length : Int) ≤ i ∧ i < 0 then
    some (tape.getD ((tape.length : Int) + i).toNat "")
  else none

/-- Python list write `tape[i] = v`, same indexing rules as `pyGet`. -/
def pySet (tape : List String) (i : Int) (v : String) : Option (List String) :=
  if 0 ≤ i ∧ i < (tape.length : Int) then some (tape.set i.toNat v)
  else if -(tape.length : Int) ≤ i ∧ i < 0 then
    some (tape.set ((tape.length : Int) + i).toNat v)
  else none

/-- Python's `str.upper()` for the ASCII direction tokens: uppercase every
character. -/
def pyUpper (s : String) : String :=
  String.mk (s.data.map Char.toUpper)

/-- Head movement (turing.py lines 62-66): `R`/`r`/`→` moves right, `L`/`l`/
`←` moves left, anything else (`S`, `STAY`, ...) leaves the head in place. -/
def tmMove (direction : String) : Int :=
  if pyUpper direction = "R" ∨ direction = "→" then 1
  else if pyUpper direction = "L" ∨ direction = "←" then -1
  else 0

structure TMConfig where
  state : String
  tape : List String
  head : Int
deriving DecidableEq

/-- The while-loop of `TuringMachine.simulate` (turing.py lines 36-80), one
fuel unit per loop iteration; exhausted fuel is the loop guard
`steps < max_steps` failing, i.e. Timeout. -/
def tmLoop (tm : TuringMachine) : Nat → TMConfig → TMVerdict
  | 0, _ => TMVerdict.timeout
  | n + 1, c =>
    if c.state ∈ tm.accept_states then TMVerdict.accepted
    else if c.state ∈ tm.reject_states then TMVerdict.rejectedExplicit
    else
      match pyGet c.tape c.head with
      | none => TMVerdict.indexError
      | some sym =>
        match tmLookup tm.transitions (c.state, sym) with
        | none => TMVerdict.rejectedNoTransition
        | some (to_state, write_symbol, direction) =>
          match pySet c.tape c.head write_symbol with
          | none => TMVerdict.indexError
          | some tape2 => tmLoop tm n ⟨to_state, tape2, c.head + tmMove direction⟩

/-- Embeds `TuringMachine.simulate` (turing.py lines 21-80): the tape is the input
list with a fixed margin of exactly 100 blank cells on each side — the
source never grows it — and the head starts at index 100. -/
def TuringMachine.simulate (tm : TuringMachine) (input : List String)
    (max_steps : Nat) : TMVerdict :=
  tmLoop tm max_steps
    ⟨tm.start_state,
     List.replicate 100 tm.blank_symbol ++ input ++ List.replicate 100 tm.blank_symbol,
     (100 : Int)⟩

/-- Claim C6: with maxSteps = 0 the while-loop guard fails before the first
iteration, so the run reports Timeout — never Accepted nor either Rejected
verdict — for every machine whose start state is not an accept state. -/
theorem tm_zero_max_steps_timeout (tm : TuringMachine) (input : List String)
    (_h : tm.start_state ∉ tm.accept_states) :
    tm.simulate input 0 = TMVerdict.timeout ∧
    tm.simulate input 0 ≠ TMVerdict.accepted ∧
    tm.simulate input 0 ≠ TMVerdict.rejectedExplicit ∧
    tm.simulate input 0 ≠ TMVerdict.rejectedNoTransition := by
  have h0 : tm.simulate input 0 = TMVerdict.timeout := rfl
  refine ⟨h0, ?_, ?_, ?_⟩ <;> rw [h0] <;> intro hc <;> cases hc

/-- A machine that marches right forever over blank cells; its accept state
`qa` is unreachable. -/
def tmC4 : TuringMachine :=
  { states := ["q0", "qa"], alphabet := [], tape_alphabet := ["_"],
    transitions := [(("q0", "_"), ("q0", "_", "R"))],
    start_state := "q0", accept_states := ["qa"], reject_states := [],
    blank_symbol := "_" }

theorem tm_zero_max_steps_timeout_witness :
    ("q0" ∉ tmC4.accept_states) ∧
    (tmC4.simulate [] 0 = TMVerdict.timeout ∧
     tmC4.simulate [] 0 ≠ TMVerdict.accepted ∧
     tmC4.simulate [] 0 ≠ TMVerdict.rejectedExplicit ∧
     tmC4.simulate [] 0 ≠ TMVerdict.rejectedNoTransition) :=
  ⟨by decide, tm_zero_max_steps_timeout tmC4 [] (by decide)⟩

set_option maxRecDepth 100000 in
/-- Claim C4: the tape is a fixed 100-cell-margin buffer that is never
grown. On `tmC4` — one rule: on blank write blank and move right — with
empty input and maxSteps = 300, the head starts at index 100 of a 200-cell
tape and reaches index 200 after 100 steps, where the read is out of
bounds: the run aborts with IndexError instead of returning a verdict, so
not every tape access addresses a valid cell and the buffer is not grown on
demand at the edge. -/
theorem tm_fixed_margin_index_error :
    tmC4.simulate [] 300 = TMVerdict.indexError := by decide
